import Mathlib

/-!
# Verification of the `gip` parallel GIF encoder (`gif.go`)

Shallow embedding of the encoder's core pipeline:

* `FastGifLut` / `mapColors` — the web-safe color quantizer with its
  parallel row-range partition,
* `encodeGIF` / `writeColorTable` / `writeUint16` / `log2` — the GIF89a
  container serializer,
* `writeLZWData` / `writeParallelLZW` — the (parallel) LZW compression
  stage, built on a faithful model of Go's `compress/lzw` LSB writer,
* `blockWriter` — the GIF data-sub-block packetizer,
* a standard GIF LZW decoder (mirroring Go's `compress/lzw` reader),
  used to state decode-equivalence properties.

Machine integers are modelled as `Nat` with explicit `% 2^w` at the points
where the Go code performs a narrowing conversion (`uint8(..)`, `uint16(..)`).
Goroutines writing to disjoint regions of a shared buffer are modelled as a
sequential fold over the strips: the written value at each position does not
depend on the strip that writes it, so any interleaving produces the same
final buffer, and the fold is one such interleaving.
-/

/-- `FastGifLut` from `gif.go`: maps an 8-bit channel value to one of the 6
web-safe levels (0–5).  Copied entry-for-entry from the source array. -/
def FastGifLut : List Nat :=
  [0, 0, 0, 0, 0, 0, 0, 0, 0, 0, 0, 0, 0, 0, 0, 0, 0, 0, 0, 0, 0, 0, 0, 0, 0, 0, 1, 1, 1, 1, 1, 1,
   1, 1, 1, 1, 1, 1, 1, 1, 1, 1, 1, 1, 1, 1, 1, 1, 1, 1, 1, 1, 1, 1, 1, 1, 1, 1, 1, 1, 1, 1, 1, 1,
   1, 1, 1, 1, 1, 1, 1, 1, 1, 1, 1, 1, 1, 2, 2, 2, 2, 2, 2, 2, 2, 2, 2, 2, 2, 2, 2, 2, 2, 2, 2, 2,
   2, 2, 2, 2, 2, 2, 2, 2, 2, 2, 2, 2, 2, 2, 2, 2, 2, 2, 2, 2, 2, 2, 2, 2, 2, 2, 2, 2, 2, 2, 2, 2,
   3, 3, 3, 3, 3, 3, 3, 3, 3, 3, 3, 3, 3, 3, 3, 3, 3, 3, 3, 3, 3, 3, 3, 3, 3, 3, 3, 3, 3, 3, 3, 3,
   3, 3, 3, 3, 3, 3, 3, 3, 3, 3, 3, 3, 3, 3, 3, 3, 3, 3, 3, 4, 4, 4, 4, 4, 4, 4, 4, 4, 4, 4, 4, 4,
   4, 4, 4, 4, 4, 4, 4, 4, 4, 4, 4, 4, 4, 4, 4, 4, 4, 4, 4, 4, 4, 4, 4, 4, 4, 4, 4, 4, 4, 4, 4, 4,
   4, 4, 4, 4, 4, 4, 5, 5, 5, 5, 5, 5, 5, 5, 5, 5, 5, 5, 5, 5, 5, 5, 5, 5, 5, 5, 5, 5, 5, 5, 5, 5]

/-- `FastGifLut[v]` — array indexing; every caller uses an index `< 256`. -/
def lutAt (v : Nat) : Nat := FastGifLut.getD v 0

/-- The row-range partition shared by `mapColors`, `writeLZWData` and
`writeParallelLZW`:

```
rowsPerWorker := height / workers
if rowsPerWorker < 1 { rowsPerWorker = 1; workers = height }
// worker i handles rows [i*rowsPerWorker, (i+1)*rowsPerWorker),
// the last worker's range ends at height instead.
```

Returns the list of `(startY, endY)` ranges, one per effective worker. -/
def stripBounds (height workers : Nat) : List (Nat × Nat) :=
  let rpw := height / workers
  let p := if rpw < 1 then (1, height) else (rpw, workers)
  (List.range p.2).map (fun i =>
    (i * p.1, if i = p.2 - 1 then height else (i + 1) * p.1))

/-! ## Disjoint-region buffer writes

`mapColors`'s workers and `writeLZWData`'s row-copy goroutines both write a
value `g j` (independent of which worker writes it) to every position `j` of
their own strip of a flat buffer.  `writeSeg` is one worker's loop,
`scatter` runs all workers. -/

/-- One worker's write loop: set positions `a, a+1, …, b-1` of `buf` to `g`. -/
def writeSeg (g : Nat → Nat) (buf : List Nat) (a b : Nat) : List Nat :=
  (List.range' a (b - a)).foldl (fun bf j => bf.set j (g j)) buf

/-- All workers' writes, strip by strip. -/
def scatter (g : Nat → Nat) (strips : List (Nat × Nat)) (w : Nat)
    (buf : List Nat) : List Nat :=
  strips.foldl (fun bf se => writeSeg g bf (se.1 * w) (se.2 * w)) buf

theorem set_getD (l : List Nat) (i j v : Nat) :
    (l.set i v).getD j 0 =
      if i = j ∧ j < l.length then v else l.getD j 0 := by
  induction l generalizing i j with
  | nil => simp
  | cons x xs ih =>
    cases i with
    | zero =>
      cases j with
      | zero => simp
      | succ j => simp [List.getD]
    | succ i =>
      cases j with
      | zero => simp [List.getD]
      | succ j =>
        simp only [List.set, List.getD_cons_succ, List.length_cons, ih i j]
        have hiff : (i + 1 = j + 1 ∧ j + 1 < xs.length + 1) ↔
            (i = j ∧ j < xs.length) := by omega
        rw [if_congr hiff rfl rfl]

theorem writeSeg_length (g : Nat → Nat) (buf : List Nat) (a b : Nat) :
    (writeSeg g buf a b).length = buf.length := by
  unfold writeSeg
  have key : ∀ n (a : Nat) (buf : List Nat),
      ((List.range' a n).foldl (fun bf j => bf.set j (g j)) buf).length =
        buf.length := by
    intro n
    induction n with
    | zero => intro a buf; simp
    | succ n ih =>
      intro a buf
      rw [List.range'_succ]
      simpa using ih (a + 1) (buf.set a (g a))
  exact key (b - a) a buf

theorem writeSeg_getD (g : Nat → Nat) (buf : List Nat) (a b j : Nat) :
    (writeSeg g buf a b).getD j 0 =
      if a ≤ j ∧ j < b ∧ j < buf.length then g j else buf.getD j 0 := by
  unfold writeSeg
  have key : ∀ n (a : Nat) (buf : List Nat),
      ((List.range' a n).foldl (fun bf j => bf.set j (g j)) buf).getD j 0 =
        if a ≤ j ∧ j < a + n ∧ j < buf.length then g j else buf.getD j 0 := by
    intro n
    induction n with
    | zero =>
      intro a buf
      have hcond : ¬(a ≤ j ∧ j < a + 0 ∧ j < buf.length) := by omega
      rw [List.range'_zero, List.foldl_nil, if_neg hcond]
    | succ n ih =>
      intro a buf
      rw [List.range'_succ]
      simp only [List.foldl_cons, ih (a + 1) (buf.set a (g a)),
        List.length_set, set_getD]
      rcases eq_or_ne a j with rfl | hne
      · split_ifs <;> first | rfl | omega
      · split_ifs <;> first | rfl | omega
  rcases le_or_lt a b with h | h
  · have hab : a + (b - a) = b := by omega
    rw [key (b - a) a buf, hab]
  · have hab : b - a = 0 := by omega
    have h1 : ¬(a ≤ j ∧ j < a + 0 ∧ j < buf.length) := by omega
    have h2 : ¬(a ≤ j ∧ j < b ∧ j < buf.length) := by omega
    rw [hab, key 0 a buf, if_neg h1, if_neg h2]

theorem scatter_length (g : Nat → Nat) (strips : List (Nat × Nat)) (w : Nat)
    (buf : List Nat) : (scatter g strips w buf).length = buf.length := by
  induction strips generalizing buf with
  | nil => rfl
  | cons se strips ih =>
    have hstep : scatter g (se :: strips) w buf =
        scatter g strips w (writeSeg g buf (se.1 * w) (se.2 * w)) := rfl
    rw [hstep, ih, writeSeg_length]

theorem scatter_getD (g : Nat → Nat) (strips : List (Nat × Nat)) (w : Nat)
    (buf : List Nat) (j : Nat) :
    (scatter g strips w buf).getD j 0 =
      if (∃ se ∈ strips, se.1 * w ≤ j ∧ j < se.2 * w) ∧ j < buf.length
      then g j else buf.getD j 0 := by
  induction strips generalizing buf with
  | nil => simp [scatter]
  | cons se strips ih =>
    have hstep : scatter g (se :: strips) w buf =
        scatter g strips w (writeSeg g buf (se.1 * w) (se.2 * w)) := rfl
    rw [hstep, ih, writeSeg_length, writeSeg_getD]
    simp only [List.exists_mem_cons_iff]
    by_cases hE : ∃ s ∈ strips, s.1 * w ≤ j ∧ j < s.2 * w <;>
      by_cases hA : se.1 * w ≤ j <;>
      by_cases hB : j < se.2 * w <;>
      by_cases hC : j < buf.length <;>
      simp [hE, hA, hB, hC]

/-! ## Generic list lemmas -/

theorem list_eq_of_getD (l1 l2 : List Nat) (hlen : l1.length = l2.length)
    (h : ∀ i, i < l1.length → l1.getD i 0 = l2.getD i 0) : l1 = l2 := by
  induction l1 generalizing l2 with
  | nil => cases l2 with
    | nil => rfl
    | cons y ys => simp at hlen
  | cons x xs ih =>
    cases l2 with
    | nil => simp at hlen
    | cons y ys =>
      have h0 : x = y := by simpa using h 0 (by simp)
      have ht : xs = ys := by
        refine ih ys (by simpa using hlen) (fun i hi => ?_)
        simpa using h (i + 1) (by simpa using hi)
      rw [h0, ht]

theorem rangeMap_getD (n i d : Nat) (f : Nat → Nat) :
    ((List.range n).map f).getD i d = if i < n then f i else d := by
  rcases Nat.lt_or_ge i n with h | h
  · rw [List.getD_eq_getElem _ _ (by simpa using h), if_pos h]
    simp
  · rw [if_neg (by omega), List.getD_eq_default _ _ (by simpa using h)]

theorem replicate_getD (n j : Nat) : (List.replicate n 0).getD j 0 = 0 := by
  rcases Nat.lt_or_ge j n with h | h
  · rw [List.getD_eq_getElem _ _ (by simpa using h)]
    simp
  · rw [List.getD_eq_default _ _ (by simpa using h)]

/-! ## Coverage of the strip partition -/

/-- Every row `y < height` lies in some strip of `stripBounds`. -/
theorem stripBounds_cover_row (height workers y : Nat) (hw : 1 ≤ workers)
    (hy : y < height) :
    ∃ se ∈ stripBounds height workers, se.1 ≤ y ∧ y < se.2 := by
  unfold stripBounds
  rcases Nat.lt_or_ge (height / workers) 1 with hr | hr
  · -- fewer rows than workers: one strip per row
    simp only [if_pos hr]
    refine ⟨(y * 1, if y = height - 1 then height else (y + 1) * 1),
      List.mem_map.mpr ⟨y, List.mem_range.mpr hy, rfl⟩, by omega, ?_⟩
    split_ifs <;> omega
  · simp only [if_neg (by omega : ¬ height / workers < 1)]
    set rpw := height / workers with hrpw
    have hrpos : 0 < rpw := hr
    have hdm := Nat.div_add_mod y rpw
    have hmlt := Nat.mod_lt y hrpos
    rcases Nat.lt_or_ge (y / rpw) (workers - 1) with hq | hq
    · -- strip i = y / rpw, which is not the last one
      refine ⟨(y / rpw * rpw, if y / rpw = workers - 1 then height
          else (y / rpw + 1) * rpw),
        List.mem_map.mpr ⟨y / rpw, List.mem_range.mpr (by omega), rfl⟩,
        Nat.div_mul_le_self y rpw, ?_⟩
      rw [if_neg (by omega)]
      calc y = rpw * (y / rpw) + y % rpw := hdm.symm
        _ < rpw * (y / rpw) + rpw := by omega
        _ = (y / rpw + 1) * rpw := by ring
    · -- y lies in the last strip
      refine ⟨((workers - 1) * rpw, if workers - 1 = workers - 1 then height
          else (workers - 1 + 1) * rpw),
        List.mem_map.mpr ⟨workers - 1, List.mem_range.mpr (by omega), rfl⟩,
        ?_, by rw [if_pos rfl]; exact hy⟩
      calc (workers - 1) * rpw ≤ y / rpw * rpw := Nat.mul_le_mul_right rpw hq
        _ ≤ y := Nat.div_mul_le_self y rpw

/-- Every buffer position `j < w * h` lies in some strip's write region. -/
theorem stripBounds_cover_pos (h w workers j : Nat) (hw : 1 ≤ workers)
    (hj : j < w * h) :
    ∃ se ∈ stripBounds h workers, se.1 * w ≤ j ∧ j < se.2 * w := by
  have hwpos : 0 < w := by
    rcases Nat.eq_zero_or_pos w with rfl | h0
    · omega
    · exact h0
  have hy : j / w < h := Nat.div_lt_of_lt_mul (by omega)
  obtain ⟨se, hmem, h1, h2⟩ := stripBounds_cover_row h workers (j / w) hw hy
  have hdm := Nat.div_add_mod j w
  have hmlt := Nat.mod_lt j hwpos
  refine ⟨se, hmem, ?_, ?_⟩
  · calc se.1 * w ≤ j / w * w := Nat.mul_le_mul_right w h1
      _ ≤ j := Nat.div_mul_le_self j w
  · calc j = w * (j / w) + j % w := hdm.symm
      _ < w * (j / w) + w := by omega
      _ = (j / w + 1) * w := by ring
      _ ≤ se.2 * w := Nat.mul_le_mul_right w (by omega)

/-! ## The color quantizer (`mapColors` / `getColorMapper`) -/

/-- A source image: bounds `w × h` (origin normalized to `(0,0)`) and a
per-pixel color sample `(R, G, B)`, each channel a 16-bit value as returned
by Go's `RGBA64At` / `Color.RGBA()`.  Alpha is ignored by the encoder. -/
structure SrcImage where
  w : Nat
  h : Nat
  px : Nat → Nat → Nat × Nat × Nat

/-- Fast path of `getColorMapper` (source exposes `image.RGBA64Image`):
`idx := 36*FastGifLut[c.R>>8] + 6*FastGifLut[c.G>>8] + FastGifLut[c.B>>8]`,
stored with `uint8(idx)` (the `% 256`). -/
def mapColorFast (c : Nat × Nat × Nat) : Nat :=
  (36 * lutAt (c.1 >>> 8) + 6 * lutAt (c.2.1 >>> 8) + lutAt (c.2.2 >>> 8)) % 256

/-- Generic path of `getColorMapper` (opaque `m.At(x,y).RGBA()` query):
`idx := 36*FastGifLut[(r>>8)&0xff] + 6*FastGifLut[(g>>8)&0xff] +
FastGifLut[(b>>8)&0xff]`, stored with `uint8(idx)`. -/
def mapColorGeneric (c : Nat × Nat × Nat) : Nat :=
  (36 * lutAt ((c.1 >>> 8) &&& 0xff) + 6 * lutAt ((c.2.1 >>> 8) &&& 0xff) +
    lutAt ((c.2.2 >>> 8) &&& 0xff)) % 256

/-- `mapColors`: the parallel quantization stage.  Each worker runs
`mapFunc` over its strip of rows, writing `buffer[y*w + x]` for its own
rows only; the workers' disjoint writes are modelled by `scatter`. -/
def mapColors (img : SrcImage) (mapper : Nat × Nat × Nat → Nat)
    (workers : Nat) : List Nat :=
  scatter (fun j => mapper (img.px (j % img.w) (j / img.w)))
    (stripBounds img.h workers) img.w
    (List.replicate (img.w * img.h) 0)

theorem mapColors_length (img : SrcImage) (mapper : Nat × Nat × Nat → Nat)
    (workers : Nat) : (mapColors img mapper workers).length = img.w * img.h := by
  unfold mapColors
  rw [scatter_length, List.length_replicate]

/-- The quantized buffer is the pointwise map of the pixel grid, for any
worker count: partition-independence of `mapColors`. -/
theorem mapColors_eq_pointwise (img : SrcImage)
    (mapper : Nat × Nat × Nat → Nat) (workers : Nat) (hw : 1 ≤ workers) :
    mapColors img mapper workers =
      (List.range (img.w * img.h)).map
        (fun j => mapper (img.px (j % img.w) (j / img.w))) := by
  refine list_eq_of_getD _ _ (by rw [mapColors_length]; simp) (fun i hi => ?_)
  rw [mapColors_length] at hi
  unfold mapColors
  rw [scatter_getD, rangeMap_getD, if_pos hi, List.length_replicate,
    if_pos ⟨stripBounds_cover_pos img.h img.w workers i hw hi, hi⟩]

/-! ## Container serializer helpers -/

/-- `writeUint16`: little-endian bytes of `uint16(v)`. -/
def writeUint16 (v : Nat) : List Nat := [v % 256, v / 256 % 256]

/-- `log2` from `gif.go`: index of the first of `[2,4,8,16,32,64,128,256]`
that is `≥ x`; the Go function returns `-1` past 256, which reaches the
output only through `uint8(-1) = 255` (unreachable for real palettes). -/
def log2 (x : Nat) : Nat :=
  if x ≤ 2 then 0 else if x ≤ 4 then 1 else if x ≤ 8 then 2
  else if x ≤ 16 then 3 else if x ≤ 32 then 4 else if x ≤ 64 then 5
  else if x ≤ 128 then 6 else if x ≤ 256 then 7 else 255

/-- The doubling loop computing `paddedSize`:
`for paddedSize < len(pm.Palette) && paddedSize < 256 { paddedSize <<= 1 }`.
The counter starts at 1 and doubles, so the loop body runs at most 8 times;
a fuel of 9 therefore reproduces the loop exactly. -/
def paddedGo : Nat → Nat → Nat → Nat
  | 0, p, _ => p
  | fuel + 1, p, n => if p < n ∧ p < 256 then paddedGo fuel (p * 2) n else p

def paddedSizeOf (n : Nat) : Nat := paddedGo 9 1 n

/-- The `litWidth` loop of `encodeGIF`:
`for litWidth = 2; litWidth < 8 && 1<<litWidth < n; litWidth++`.
The counter runs from 2 to at most 8, so fuel 6 reproduces the loop. -/
def lwGo : Nat → Nat → Nat → Nat
  | 0, v, _ => v
  | fuel + 1, v, n => if v < 8 ∧ 2 ^ v < n then lwGo fuel (v + 1) n else v

/-- `litWidth := 8; if n := len(pm.Palette); n > 0 { for litWidth = 2; … } }`. -/
def litWidthOf (n : Nat) : Nat := if 0 < n then lwGo 6 2 n else 8

/-- `palette.WebSafe`: the 216-entry 6×6×6 web-safe cube, entry
`36*r+6*g+b ↦ (51r, 51g, 51b)` (all entries have alpha 0xFF, so the
`color.NRGBAModel` conversion in `writeColorTable` is the identity on the
RGB components). -/
def WebSafe : List (Nat × Nat × Nat) :=
  (List.range 216).map (fun i => (51 * (i / 36), 51 * (i / 6 % 6), 51 * (i % 6)))

/-- `writeColorTable`: one 3-byte `(R,G,B)` entry per table slot; slots at
or beyond the palette length keep the zero `rgb` value. -/
def writeColorTable (p : List (Nat × Nat × Nat)) (paddedSize : Nat) :
    List (List Nat) :=
  (List.range paddedSize).map (fun i =>
    if i < p.length then
      [(p.getD i (0, 0, 0)).1, (p.getD i (0, 0, 0)).2.1, (p.getD i (0, 0, 0)).2.2]
    else [0, 0, 0])

/-! ## The sub-block packetizer (`blockWriter`)

`bwWriteGo`/`bwWrite`/`bwClose` model `blockWriter.Write` and
`blockWriter.close` as a state machine whose state is the list of buffered
data bytes (`b.buf[1:b.n+1]`).  `chunk255` is the packetizer's net effect
on a whole byte stream, proved equal to the state machine below
(`bwRun_eq_chunk255`). -/

/-- One `blockWriter.Write(p)` call.  Each loop iteration copies
`n = min(255 - len(buffered), len(p))` bytes and flushes a `255`-length
block when the buffer fills; `n ≥ 1` whenever `p` is nonempty (the buffer
never holds more than 254 bytes between iterations), so a fuel of `len p`
covers the loop. -/
def bwWriteGo : Nat → List Nat → List Nat → List Nat × List Nat
  | _, buf, [] => ([], buf)
  | 0, buf, _ => ([], buf)
  | fuel + 1, buf, p =>
    let n := min (255 - buf.length) p.length
    let buf1 := buf ++ p.take n
    let rest := p.drop n
    if buf1.length = 255 then
      let r := bwWriteGo fuel [] rest
      (255 :: buf1 ++ r.1, r.2)
    else
      bwWriteGo fuel buf1 rest

def bwWrite (buf p : List Nat) : List Nat × List Nat := bwWriteGo p.length buf p

/-- `blockWriter.close`: flush remaining buffered bytes as one short block. -/
def bwClose (buf : List Nat) : List Nat :=
  if 0 < buf.length then buf.length :: buf else []

/-- A whole session: a sequence of `Write` calls followed by `close`;
returns everything passed to the underlying writer. -/
def bwRun (writes : List (List Nat)) : List Nat :=
  let r := writes.foldl
    (fun acc p => let s := bwWrite acc.2 p; (acc.1 ++ s.1, s.2))
    (([] : List Nat), ([] : List Nat))
  r.1 ++ bwClose r.2

/-- Net effect of the packetizer on a byte stream: 255-byte blocks, then a
final short block.  Each step consumes 255 bytes, so fuel `len l` covers it. -/
def chunk255go : Nat → List Nat → List Nat
  | 0, l => if l = [] then [] else l.length :: l
  | fuel + 1, l =>
    if 255 ≤ l.length then 255 :: (l.take 255 ++ chunk255go fuel (l.drop 255))
    else if l = [] then [] else l.length :: l

def chunk255 (l : List Nat) : List Nat := chunk255go l.length l

/-! ## LZW compression (Go `compress/lzw`, LSB order, as used by GIF)

The encoder state mirrors Go's `lzw.Writer`: current code width, `hi` (the
code implied by the last table insertion), `overflow` (the value of `hi` at
which the width grows), the string table as an association list
`(prefixCode<<8|literal) ↦ code`, the LSB bit buffer, and the bytes
emitted so far.  `maxCode = 1<<12 - 1 = 4095`. -/

structure EncSt where
  width : Nat
  hi : Nat
  overflow : Nat
  table : List (Nat × Nat)
  bits : Nat
  nBits : Nat
  out : List Nat

/-- `for w.nBits >= 8 { emit uint8(w.bits); w.bits >>= 8; w.nBits -= 8 }`.
The bit buffer never holds more than `7 + width ≤ 19` bits, so at most two
iterations run; fuel 3 reproduces the loop. -/
def drainBits : Nat → Nat → Nat → List Nat → Nat × Nat × List Nat
  | 0, bits, nBits, out => (bits, nBits, out)
  | k + 1, bits, nBits, out =>
    if 8 ≤ nBits then drainBits k (bits >>> 8) (nBits - 8) (out ++ [bits % 256])
    else (bits, nBits, out)

/-- `(w *Writer) write(code)`: pack `code` into the LSB bit buffer at the
current width and emit the full bytes. -/
def lzwEmit (st : EncSt) (code : Nat) : EncSt :=
  let bits := st.bits ||| (code <<< st.nBits)
  let d := drainBits 3 bits (st.nBits + st.width) st.out
  { st with bits := d.1, nBits := d.2.1, out := d.2.2 }

/-- `(w *Writer) incHi()`: bump `hi`, grow the width at `overflow`, and at
`maxCode = 4095` emit a clear code and reset the table (returning `true`
for Go's `errOutOfCodes`). -/
def lzwIncHi (litWidth : Nat) (st : EncSt) : EncSt × Bool :=
  let hi1 := st.hi + 1
  let st1 := if hi1 = st.overflow
    then { st with hi := hi1, width := st.width + 1, overflow := st.overflow * 2 }
    else { st with hi := hi1 }
  if st1.hi = 4095 then
    let clear := 2 ^ litWidth
    let st2 := lzwEmit st1 clear
    ({ st2 with
        width := litWidth + 1, hi := clear + 1, overflow := clear * 2,
        table := [] }, true)
  else (st1, false)

/-- One iteration of the `Write` loop: `code` is the current prefix code
(`w.savedCode`), `x` the next literal.  On a table miss the prefix code is
emitted and `key ↦ hi` inserted (unless the table was just reset). -/
def lzwStep (litWidth : Nat) (st : EncSt) (code x : Nat) : EncSt × Nat :=
  let key := code * 256 + x
  match st.table.lookup key with
  | some c => (st, c)
  | none =>
    let st1 := lzwEmit st code
    let r := lzwIncHi litWidth st1
    if r.2 then (r.1, x)
    else ({ r.1 with table := (key, r.1.hi) :: r.1.table }, x)

/-- `(w *Writer) Close()`: emit the saved code (or, for an empty stream,
the clear code), then the EOF code, then the final partial byte. -/
def lzwFinish (litWidth : Nat) (st : EncSt) (saved : Option Nat) : List Nat :=
  let clear := 2 ^ litWidth
  let st1 := match saved with
    | some c => (lzwIncHi litWidth (lzwEmit st c)).1
    | none => lzwEmit st clear
  let st2 := lzwEmit st1 (clear + 1)
  if 0 < st2.nBits then st2.out ++ [st2.bits % 256] else st2.out

/-- A full `NewWriter; Write(data); Close()` session, as performed per
strip (and for the whole image) by `writeLZWData`/`writeParallelLZW`. -/
def lzwEncode (litWidth : Nat) (data : List Nat) : List Nat :=
  let clear := 2 ^ litWidth
  let st0 : EncSt := {
    width := litWidth + 1, hi := clear + 1,
    overflow := clear * 2, table := [], bits := 0, nBits := 0, out := [] }
  match data with
  | [] => lzwFinish litWidth st0 none
  | d :: ds =>
    let r := ds.foldl (fun acc x => lzwStep litWidth acc.1 acc.2 x) (st0, d)
    lzwFinish litWidth r.1 r.2

/-! ## LZW decoding (standard GIF semantics, mirroring Go's `lzw.Reader`)

The decoder consumes codes of the current width (LSB-first), maintains the
prefix/suffix string table, stops at the end-of-information code, and
treats any malformed input as a decode error (`none`). -/

structure DecSt where
  width : Nat
  hi : Nat
  overflow : Nat
  last : Option Nat
  pfxTab : List (Nat × Nat)
  sfxTab : List (Nat × Nat)
  out : List Nat

/-- Read one code: pull bytes LSB-first until `width` bits are available.
The Go loop pulls at most `⌈(width - nBits)/8⌉ ≤ 2` bytes per code
(`width ≤ 12`), so a fuel of 3 reproduces it. -/
def readCode : Nat → Nat → Nat → Nat → List Nat →
    Option (Nat × Nat × Nat × List Nat)
  | 0, width, bits, nBits, bytes =>
    if width ≤ nBits then
      some (bits &&& (2 ^ width - 1), bits >>> width, nBits - width, bytes)
    else none
  | f + 1, width, bits, nBits, bytes =>
    if width ≤ nBits then
      some (bits &&& (2 ^ width - 1), bits >>> width, nBits - width, bytes)
    else
      match bytes with
      | [] => none
      | b :: bs => readCode f width (bits ||| (b <<< nBits)) (nBits + 8) bs

/-- Reconstruct the string of a table code by following the prefix chain
(Go walks `r.prefix`/`r.suffix`); the chain strictly descends, so a fuel
of 4096 (the table size) always suffices. -/
def expandCode : Nat → Nat → List (Nat × Nat) → List (Nat × Nat) → Nat →
    Option (List Nat)
  | 0, _, _, _, _ => none
  | f + 1, clear, pfx, sfx, c =>
    if c < clear then some [c]
    else match pfx.lookup c, sfx.lookup c with
      | some p, some s => (expandCode f clear pfx sfx p).map (fun l => l ++ [s])
      | _, _ => none

/-- `r.last, r.hi = code, r.hi+1` followed by the width-growth check. -/
def bumpDec (st : DecSt) (code : Nat) : DecSt :=
  let st1 := { st with last := some code, hi := st.hi + 1 }
  if st1.overflow ≤ st1.hi then
    if st1.width = 12 then { st1 with last := none }
    else { st1 with width := st1.width + 1, overflow := st1.overflow * 2 }
  else st1

/-- The decode loop.  Each iteration consumes at least `width ≥ 3` bits,
so `3*len(bytes)+4` iterations always cover a complete stream; the fuel
only runs out on malformed input, which is an error (`none`) anyway. -/
def lzwDecLoop (litWidth : Nat) : Nat → DecSt → Nat → Nat → List Nat →
    Option (List Nat)
  | 0, _, _, _, _ => none
  | f + 1, st, bits, nBits, bytes =>
    let clear := 2 ^ litWidth
    let eofC := clear + 1
    match readCode 3 st.width bits nBits bytes with
    | none => none
    | some (code, bits1, nBits1, bytes1) =>
      if code < clear then
        let stA := match st.last with
          | some lastC => { st with
              pfxTab := (st.hi, lastC) :: st.pfxTab,
              sfxTab := (st.hi, code) :: st.sfxTab }
          | none => st
        let stB := { stA with out := stA.out ++ [code] }
        lzwDecLoop litWidth f (bumpDec stB code) bits1 nBits1 bytes1
      else if code = clear then
        lzwDecLoop litWidth f { st with
          width := litWidth + 1, hi := eofC,
          overflow := 2 ^ (litWidth + 1), last := none } bits1 nBits1 bytes1
      else if code = eofC then
        some st.out
      else if code ≤ st.hi then
        match st.last with
        | none => none
        | some lastC =>
          let src := if code = st.hi then lastC else code
          match expandCode 4096 clear st.pfxTab st.sfxTab src with
          | none => none
          | some str =>
            match str.head? with
            | none => none
            | some hd =>
              let str1 := if code = st.hi then str ++ [hd] else str
              let stA := { st with
                  pfxTab := (st.hi, lastC) :: st.pfxTab,
                  sfxTab := (st.hi, hd) :: st.sfxTab,
                  out := st.out ++ str1 }
              lzwDecLoop litWidth f (bumpDec stA code) bits1 nBits1 bytes1
      else none

/-- Decode a GIF LZW byte stream: stops (successfully) at the first
end-of-information code, ignoring any remaining bytes. -/
def lzwDecode (litWidth : Nat) (bytes : List Nat) : Option (List Nat) :=
  let clear := 2 ^ litWidth
  lzwDecLoop litWidth (3 * bytes.length + 4)
    {
      width := litWidth + 1, hi := clear + 1, overflow := clear * 2,
      last := none, pfxTab := [], sfxTab := [], out := [] } 0 0 bytes

/-- Undo the sub-block framing: read `len`-prefixed blocks until the bytes
are exhausted (or a 0x00 terminator byte).  Each step consumes `1 + len`
bytes, so fuel `len bytes` covers it. -/
def deBlockGo : Nat → List Nat → Option (List Nat)
  | _, [] => some []
  | 0, _ :: _ => none
  | f + 1, l0 :: rest =>
    if l0 = 0 then some []
    else if rest.length < l0 then none
    else (deBlockGo f (rest.drop l0)).map (fun d => rest.take l0 ++ d)

def deBlock (bytes : List Nat) : Option (List Nat) := deBlockGo bytes.length bytes

/-- Decode a sub-block-framed LZW payload (deframe, then LZW-decode). -/
def decodeFramed (litWidth : Nat) (bytes : List Nat) : Option (List Nat) :=
  match deBlock bytes with
  | none => none
  | some d => lzwDecode litWidth d

/-! ## The compression stage and the full encoder -/

/-- `writeParallelLZW`: compress each strip independently (fresh LZW
writer and fresh `blockWriter` into a private buffer), then write the
chunks in strip order.  The per-strip data is `pm.Pix[sy*dx : ey*dx]`. -/
def writeParallelLZW (pix : List Nat) (dx dy litWidth workers : Nat) : List Nat :=
  ((stripBounds dy workers).map (fun se =>
    chunk255 (lzwEncode litWidth
      ((pix.drop (se.1 * dx)).take ((se.2 - se.1) * dx))))).flatten

/-- `writeLZWData`: takes the parallel path when
`workers > 1 && dy >= workers*4`; otherwise the strips' rows are copied
into a single `imageData` buffer (modelled by `scatter`, position `j`
receiving `pix[j]`) and compressed as one continuous stream through one
`blockWriter`. -/
def writeLZWData (pix : List Nat) (dx dy litWidth workers : Nat) : List Nat :=
  if 1 < workers ∧ workers * 4 ≤ dy then
    writeParallelLZW pix dx dy litWidth workers
  else
    let imageData := scatter (fun j => pix.getD j 0) (stripBounds dy workers) dx
      (List.replicate (dx * dy) 0)
    chunk255 (lzwEncode litWidth imageData)

/-- `encodeGIF`: the complete GIF89a bitstream for one paletted frame.
All `bufio` writes are modelled as succeeding. -/
def encodeGIF (pal : List (Nat × Nat × Nat)) (pix : List Nat)
    (dx dy workers : Nat) : Except String (List Nat) :=
  if pal.length = 0 then
    .error "gif: cannot encode image block with empty palette"
  else
    let paddedSize := paddedSizeOf pal.length
    let litWidth := litWidthOf pal.length
    .ok ([0x47, 0x49, 0x46, 0x38, 0x39, 0x61]
      ++ writeUint16 dx ++ writeUint16 dy
      ++ [0x80 ||| log2 paddedSize, 0x00, 0x00]
      ++ (writeColorTable pal paddedSize).flatten
      ++ [0x2C] ++ writeUint16 0 ++ writeUint16 0
      ++ writeUint16 dx ++ writeUint16 dy ++ [0x00]
      ++ [litWidth % 256]
      ++ writeLZWData pix dx dy litWidth workers
      ++ [0x00, 0x3B])

/-- `Encode`: size check (before anything is written), quantization with
the chosen color mapper, then serialization with the fixed web-safe
palette.  `workers` is the resolved worker count (`o.Workers` if positive,
else `runtime.NumCPU()`, always ≥ 1); `fast` selects `getColorMapper`'s
RGBA64 fast path. -/
def Encode (img : SrcImage) (fast : Bool) (workers : Nat) :
    Except String (List Nat) :=
  if 65536 ≤ img.w ∨ 65536 ≤ img.h then
    .error "gif: image is too large to encode"
  else
    encodeGIF WebSafe
      (mapColors img (if fast then mapColorFast else mapColorGeneric) workers)
      img.w img.h workers

/-! ## Packetizer lemmas: the state machine equals `chunk255` -/

theorem bwWriteGo_nil (f : Nat) (buf : List Nat) :
    bwWriteGo f buf [] = ([], buf) := by
  cases f <;> rfl

theorem chunk255go_congr (k : Nat) : ∀ (l : List Nat) (f g : Nat),
    l.length ≤ k → l.length ≤ f → l.length ≤ g →
    chunk255go f l = chunk255go g l := by
  induction k with
  | zero =>
    intro l f g h1 _ _
    have hl : l = [] := by cases l <;> simp_all
    subst hl
    cases f <;> cases g <;> simp [chunk255go]
  | succ k ih =>
    intro l f g h1 h2 h3
    cases l with
    | nil => cases f <;> cases g <;> simp [chunk255go]
    | cons x xs =>
      cases f with
      | zero => simp at h2
      | succ f =>
        cases g with
        | zero => simp at h3
        | succ g =>
          simp only [List.length_cons] at h1 h2 h3
          simp only [chunk255go]
          by_cases hlen : 255 ≤ (x :: xs).length
          · rw [if_pos hlen, if_pos hlen,
              ih ((x :: xs).drop 255) f g
                (by simp only [List.length_drop, List.length_cons]; omega)
                (by simp only [List.length_drop, List.length_cons]; omega)
                (by simp only [List.length_drop, List.length_cons]; omega)]
          · rw [if_neg hlen, if_neg hlen]

theorem chunk255_peel (l : List Nat) (h : 255 ≤ l.length) :
    chunk255 l = 255 :: (l.take 255 ++ chunk255 (l.drop 255)) := by
  unfold chunk255
  obtain ⟨f, hf⟩ : ∃ f, l.length = f + 1 := ⟨l.length - 1, by omega⟩
  rw [hf]
  simp only [chunk255go]
  rw [if_pos h, chunk255go_congr (l.drop 255).length (l.drop 255) f
    (l.drop 255).length le_rfl (by simp only [List.length_drop]; omega) le_rfl]

theorem chunk255_small (l : List Nat) (h : l.length < 255) :
    chunk255 l = if l = [] then [] else l.length :: l := by
  cases l with
  | nil => rfl
  | cons x xs =>
    unfold chunk255
    simp only [List.length_cons, chunk255go]
    rw [if_neg (by simp only [List.length_cons] at h ⊢; omega)]

/-- `blockWriter.Write` invariant/effect: the buffered state stays ≤ 254
bytes, and the output so far together with the future framing of the new
state frames `buf ++ p ++ t` for any future bytes `t`. -/
theorem bwWriteGo_spec (k : Nat) : ∀ (p buf : List Nat) (f : Nat),
    p.length ≤ k → p.length ≤ f → buf.length ≤ 254 →
    (bwWriteGo f buf p).2.length ≤ 254 ∧
    ∀ t, (bwWriteGo f buf p).1 ++ chunk255 ((bwWriteGo f buf p).2 ++ t) =
      chunk255 (buf ++ (p ++ t)) := by
  induction k with
  | zero =>
    intro p buf f hk _ hbuf
    have hp : p = [] := by cases p <;> simp_all
    subst hp
    rw [bwWriteGo_nil]
    exact ⟨hbuf, fun t => by simp⟩
  | succ k ih =>
    intro p buf f hk hf hbuf
    cases p with
    | nil =>
      rw [bwWriteGo_nil]
      exact ⟨hbuf, fun t => by simp⟩
    | cons x xs =>
      cases f with
      | zero => simp at hf
      | succ f =>
        simp only [List.length_cons] at hk hf
        have hstep : bwWriteGo (f + 1) buf (x :: xs) =
            (let n := min (255 - buf.length) (x :: xs).length
            let buf1 := buf ++ (x :: xs).take n
            let rest := (x :: xs).drop n
            if buf1.length = 255 then
              let r := bwWriteGo f [] rest
              (255 :: buf1 ++ r.1, r.2)
            else
              bwWriteGo f buf1 rest) := rfl
        set n := min (255 - buf.length) (x :: xs).length with hn
        have hn1 : 1 ≤ n := by
          rw [hn]; simp only [List.length_cons]; omega
        have hnle : n ≤ (x :: xs).length := min_le_right _ _
        have htake : ((x :: xs).take n).length = n := List.length_take_of_le hnle
        have hrlen : ((x :: xs).drop n).length = xs.length + 1 - n := by
          simp only [List.length_drop, List.length_cons]
        by_cases hfull : (buf ++ (x :: xs).take n).length = 255
        · have hres : bwWriteGo (f + 1) buf (x :: xs) =
              (255 :: (buf ++ (x :: xs).take n) ++ (bwWriteGo f [] ((x :: xs).drop n)).1,
                (bwWriteGo f [] ((x :: xs).drop n)).2) := by
            rw [hstep]
            simp only [← hn, if_pos hfull]
          obtain ⟨ih1, ih2⟩ := ih ((x :: xs).drop n) [] f
            (by omega) (by omega) (by simp)
          rw [hres]
          refine ⟨ih1, fun t => ?_⟩
          have hsplit : buf ++ (x :: xs ++ t) =
              (buf ++ (x :: xs).take n) ++ ((x :: xs).drop n ++ t) := by
            rw [List.append_assoc, ← List.append_assoc ((x :: xs).take n),
              List.take_append_drop]
          calc (255 :: (buf ++ (x :: xs).take n) ++ (bwWriteGo f [] ((x :: xs).drop n)).1)
                ++ chunk255 ((bwWriteGo f [] ((x :: xs).drop n)).2 ++ t)
              = 255 :: ((buf ++ (x :: xs).take n) ++
                  ((bwWriteGo f [] ((x :: xs).drop n)).1 ++
                    chunk255 ((bwWriteGo f [] ((x :: xs).drop n)).2 ++ t))) := by
                simp
            _ = 255 :: ((buf ++ (x :: xs).take n) ++ chunk255 ((x :: xs).drop n ++ t)) := by
                rw [ih2 t]; simp
            _ = chunk255 ((buf ++ (x :: xs).take n) ++ ((x :: xs).drop n ++ t)) := by
                rw [chunk255_peel ((buf ++ (x :: xs).take n) ++ ((x :: xs).drop n ++ t))
                    (by rw [List.length_append, hfull]; omega),
                  List.take_left' hfull, List.drop_left' hfull]
            _ = chunk255 (buf ++ (x :: xs ++ t)) := by rw [← hsplit]
        · have hmin : n = (x :: xs).length := by
            rcases le_or_lt (255 - buf.length) (x :: xs).length with hmle | hmgt
            · exfalso
              apply hfull
              rw [List.length_append, htake, hn]
              simp only [List.length_cons] at hmle ⊢
              omega
            · rw [hn]
              simp only [List.length_cons] at hmgt ⊢
              omega
          have hdrop : (x :: xs).drop n = [] := by rw [hmin, List.drop_length]
          have htk : (x :: xs).take n = x :: xs := by rw [hmin, List.take_length]
          have hres : bwWriteGo (f + 1) buf (x :: xs) = ([], buf ++ (x :: xs)) := by
            rw [hstep]
            simp only [← hn, if_neg hfull]
            rw [hdrop, bwWriteGo_nil, htk]
          rw [hres]
          constructor
          · rw [List.length_append] at hfull ⊢
            rw [htk] at hfull
            simp only [List.length_cons] at hfull ⊢
            have : buf.length + n ≤ 255 := by rw [hn]; simp; omega
            rw [hmin] at this
            simp only [List.length_cons] at this
            omega
          · intro t
            simp

/-- The `blockWriter` session (`Write*; close`) emits exactly the
`chunk255` framing of the concatenated written bytes.  This connects the
stateful packetizer to the stream-level framing used in
`writeLZWData`/`writeParallelLZW`. -/
theorem bwRun_eq_chunk255 (writes : List (List Nat)) :
    bwRun writes = chunk255 writes.flatten := by
  have key : ∀ (ws : List (List Nat)) (out buf : List Nat), buf.length ≤ 254 →
      (ws.foldl (fun acc p => let s := bwWrite acc.2 p; (acc.1 ++ s.1, s.2))
        (out, buf)).1 ++
      bwClose (ws.foldl (fun acc p => let s := bwWrite acc.2 p; (acc.1 ++ s.1, s.2))
        (out, buf)).2 = out ++ chunk255 (buf ++ ws.flatten) := by
    intro ws
    induction ws with
    | nil =>
      intro out buf hb
      simp only [List.foldl_nil, List.flatten_nil, List.append_nil]
      rw [chunk255_small buf (by omega)]
      cases buf with
      | nil => simp [bwClose]
      | cons b bs => simp [bwClose]
    | cons p ws ih =>
      intro out buf hb
      obtain ⟨h1, h2⟩ := bwWriteGo_spec p.length p buf p.length le_rfl le_rfl hb
      simp only [List.foldl_cons]
      rw [ih (out ++ (bwWrite buf p).1) (bwWrite buf p).2 h1]
      have hw : (bwWrite buf p).1 ++ chunk255 ((bwWrite buf p).2 ++ ws.flatten) =
          chunk255 (buf ++ (p ++ ws.flatten)) := h2 ws.flatten
      rw [List.append_assoc, hw]
      simp
  have := key writes [] [] (by simp)
  simpa [bwRun] using this

/-- Structure of the `chunk255` framing: a list of blocks, each emitted as
one length byte followed by its data, whose concatenation is the input;
all blocks except possibly the last are exactly 255 bytes. -/
theorem chunk255_blocks (k : Nat) : ∀ data : List Nat, data.length ≤ k →
    ∃ blocks : List (List Nat),
      chunk255 data = (blocks.map (fun b => b.length :: b)).flatten ∧
      (∀ b ∈ blocks, 1 ≤ b.length ∧ b.length ≤ 255) ∧
      blocks.flatten = data ∧
      (∀ b ∈ blocks.dropLast, b.length = 255) ∧
      (data = [] → blocks = []) := by
  induction k with
  | zero =>
    intro data hk
    have hd : data = [] := by cases data <;> simp_all
    subst hd
    exact ⟨[], by simp [chunk255, chunk255go], by simp, by simp, by simp, by simp⟩
  | succ k ih =>
    intro data hk
    rcases Nat.lt_or_ge data.length 255 with hsmall | hbig
    · cases data with
      | nil =>
        exact ⟨[], by simp [chunk255, chunk255go], by simp, by simp, by simp, by simp⟩
      | cons x xs =>
        refine ⟨[x :: xs], ?_, ?_, by simp, by simp, by simp⟩
        · rw [chunk255_small _ hsmall, if_neg (by simp)]
          simp
        · intro b hb
          simp only [List.mem_singleton] at hb
          subst hb
          simp only [List.length_cons] at hsmall ⊢
          omega
    · obtain ⟨blocks, hb1, hb2, hb3, hb4, hb5⟩ := ih (data.drop 255)
        (by simp only [List.length_drop]; omega)
      have htlen : (data.take 255).length = 255 := List.length_take_of_le hbig
      refine ⟨data.take 255 :: blocks, ?_, ?_, ?_, ?_, ?_⟩
      · rw [chunk255_peel data hbig]
        simp only [List.map_cons, List.flatten_cons, htlen, hb1]
        simp
      · intro b hb
        rcases List.mem_cons.mp hb with rfl | hbm
        · omega
        · exact hb2 b hbm
      · simp only [List.flatten_cons, hb3, List.take_append_drop]
      · intro b hb
        cases hbl : blocks with
        | nil => rw [hbl] at hb; simp at hb
        | cons c cs =>
          rw [hbl] at hb
          rw [List.dropLast_cons₂] at hb
          rcases List.mem_cons.mp hb with rfl | hbm
          · exact htlen
          · rw [hbl] at hb4
            exact hb4 b hbm
      · intro hdata
        rw [hdata] at hbig
        simp at hbig

/-! ## Assorted facts about the model components -/

set_option maxRecDepth 10000 in
theorem lutAt_le_five (v : Nat) : lutAt v ≤ 5 := by
  rcases Nat.lt_or_ge v 256 with h | h
  · have hball : ∀ u, u < 256 → lutAt u ≤ 5 := by decide
    exact hball v h
  · unfold lutAt
    rw [List.getD_eq_default _ _ (by rw [(by decide : FastGifLut.length = 256)]; omega)]
    omega

theorem WebSafe_length : WebSafe.length = 216 := by
  unfold WebSafe
  simp

/-- `getD` of a `(List.range n).map f` list of pairs. -/
theorem rangeMap_getD_pair (n i : Nat) (d : Nat × Nat) (f : Nat → Nat × Nat) :
    ((List.range n).map f).getD i d = if i < n then f i else d := by
  rcases Nat.lt_or_ge i n with h | h
  · rw [List.getD_eq_getElem _ _ (by simpa using h), if_pos h]
    simp
  · rw [if_neg (by omega), List.getD_eq_default _ _ (by simpa using h)]

/-- `getD` of a `(List.range n).map f` list of byte lists. -/
theorem rangeMap_getD_list (n i : Nat) (d : List Nat) (f : Nat → List Nat) :
    ((List.range n).map f).getD i d = if i < n then f i else d := by
  rcases Nat.lt_or_ge i n with h | h
  · rw [List.getD_eq_getElem _ _ (by simpa using h), if_pos h]
    simp
  · rw [if_neg (by omega), List.getD_eq_default _ _ (by simpa using h)]

/-- `imageData` reassembly in the sequential path of `writeLZWData`: copying
every strip's rows into a fresh buffer reproduces the pixel buffer. -/
theorem assemble_eq (pix : List Nat) (dx dy workers : Nat) (hw : 1 ≤ workers)
    (hlen : pix.length = dx * dy) :
    scatter (fun j => pix.getD j 0) (stripBounds dy workers) dx
      (List.replicate (dx * dy) 0) = pix := by
  refine list_eq_of_getD _ _ ?_ (fun i hi => ?_)
  · rw [scatter_length, List.length_replicate, hlen]
  · rw [scatter_length, List.length_replicate] at hi
    rw [scatter_getD, List.length_replicate,
      if_pos ⟨stripBounds_cover_pos dy dx workers i hw hi, hi⟩]

/-- A strip list always has at least one strip when there are rows. -/
theorem stripBounds_ne_nil (height workers : Nat) (hw : 1 ≤ workers)
    (hh : 1 ≤ height) : stripBounds height workers ≠ [] := by
  unfold stripBounds
  rcases Nat.lt_or_ge (height / workers) 1 with hr | hr
  · simp only [if_pos hr, ne_eq, List.map_eq_nil_iff, List.range_eq_nil]
    omega
  · simp only [if_neg (by omega : ¬ height / workers < 1), ne_eq,
      List.map_eq_nil_iff, List.range_eq_nil]
    omega

/-! ## Compressed empty streams (zero-pixel images) -/

theorem deBlockGo_nil (f : Nat) : deBlockGo f [] = some [] := by
  cases f <;> rfl

/-- Deframing `n` copies of the framed empty-stream block `[3,0,3,2]`
yields `n` copies of the raw empty-stream bytes `[0,3,2]`. -/
theorem deBlockGo_rep : ∀ (n f : Nat), 4 * n ≤ f →
    deBlockGo f ((List.replicate n ([3, 0, 3, 2] : List Nat)).flatten) =
      some ((List.replicate n ([0, 3, 2] : List Nat)).flatten) := by
  intro n
  induction n with
  | zero => intro f _; simp [deBlockGo_nil]
  | succ n ih =>
    intro f hf
    obtain ⟨f1, rfl⟩ : ∃ f1, f = f1 + 1 := ⟨f - 1, by omega⟩
    rw [List.replicate_succ, List.flatten_cons]
    simp only [deBlockGo, List.append_eq, List.cons_append, List.nil_append]
    rw [if_neg (show ¬(3 = 0) by omega)]
    rw [if_neg (by
      simp only [List.length_cons]
      omega)]
    simp only [List.take_succ_cons, List.take_zero, List.drop_succ_cons,
      List.drop_zero]
    rw [ih f1 (by omega)]
    simp [List.replicate_succ]

/-- Decoding the LZW stream of the empty pixel sequence (`clear` then
`end-of-information`, i.e. bytes `0,3,2` at literal width 8) yields the
empty sequence and ignores anything after the EOI code. -/
theorem lzwDecLoop_empty_stream (f : Nat) (rest : List Nat) :
    lzwDecLoop 8 (f + 2)
      { width := 9, hi := 257, overflow := 512, last := none,
        pfxTab := [], sfxTab := [], out := [] } 0 0 ([0, 3, 2] ++ rest) =
      some [] := by
  have hA : (768 : Nat) &&& 511 = 256 := by decide
  have hB : (257 : Nat) &&& 511 = 257 := by decide
  simp [lzwDecLoop, readCode, hA, hB]

theorem lzwDecode_empty_stream (rest : List Nat) :
    lzwDecode 8 ([0, 3, 2] ++ rest) = some [] := by
  unfold lzwDecode
  have hf : 3 * ([0, 3, 2] ++ rest).length + 4 = (3 * rest.length + 11) + 2 := by
    simp only [List.length_append, List.length_cons, List.length_nil]
    omega
  rw [hf]
  exact lzwDecLoop_empty_stream (3 * rest.length + 11) rest

/-! ## Claim C1 -/

set_option maxRecDepth 100000 in
/-- C1: the claim states that for every index buffer and worker count, the
parallel block compressor's output decodes to the same pixel sequence as
the single-worker continuous stream.  This is false on the code: each
strip's LZW stream is terminated by its own end-of-information code, and a
standard GIF LZW decode stops at the first one.  On the 1×8 buffer
`[0,1,2,3,4,5,0,1]` with 2 workers (the parallel path, since
`dy = 8 ≥ workers*4`), the parallel output decodes to only the first
strip `[0,1,2,3]`, while the single-worker output decodes to all 8
pixels. -/
theorem c1_parallel_decode_differs :
    decodeFramed 8 (writeLZWData [0, 1, 2, 3, 4, 5, 0, 1] 1 8 8 2) =
      some [0, 1, 2, 3] ∧
    decodeFramed 8 (writeLZWData [0, 1, 2, 3, 4, 5, 0, 1] 1 8 8 1) =
      some [0, 1, 2, 3, 4, 5, 0, 1] ∧
    decodeFramed 8 (writeLZWData [0, 1, 2, 3, 4, 5, 0, 1] 1 8 8 2) ≠
      decodeFramed 8 (writeLZWData [0, 1, 2, 3, 4, 5, 0, 1] 1 8 8 1) := by
  refine ⟨by decide, by decide, ?_⟩
  intro h
  have h1 : decodeFramed 8 (writeLZWData [0, 1, 2, 3, 4, 5, 0, 1] 1 8 8 2) =
      some [0, 1, 2, 3] := by decide
  have h2 : decodeFramed 8 (writeLZWData [0, 1, 2, 3, 4, 5, 0, 1] 1 8 8 1) =
      some [0, 1, 2, 3, 4, 5, 0, 1] := by decide
  rw [h, h2] at h1
  simp at h1

/-! ## Claim C3 -/

/-- C3 counterexample: the claim says each non-last range has
`ceil(H/N)` rows.  For `H = 10`, `N = 4` the code produces ranges of
`floor(10/4) = 2` rows (last absorbs the remainder), not
`ceil(10/4) = 3`. -/
theorem c3_counterexample :
    stripBounds 10 4 = [(0, 2), (2, 4), (4, 6), (6, 10)] ∧
    ¬((2 : Nat) - 0 = (10 + 4 - 1) / 4) := by decide

/-- C3 amended: the H rows are split into N contiguous ranges of
`floor(H/N)` rows each, except the last range which absorbs the
remainder; if `H/N < 1` the effective worker count is reduced to `H`, one
row per worker with no idle workers.  (`stripBounds` is the partition
used by `mapColors`, `writeLZWData` and `writeParallelLZW`.) -/
theorem c3_amended (H N : Nat) (hN : 1 ≤ N) (hH : 1 ≤ H) :
    (N ≤ H →
      (stripBounds H N).length = N ∧
      (∀ i, i + 1 < N →
        (stripBounds H N).getD i (0, 0) = (i * (H / N), (i + 1) * (H / N))) ∧
      (stripBounds H N).getD (N - 1) (0, 0) = ((N - 1) * (H / N), H)) ∧
    (H < N →
      (stripBounds H N).length = H ∧
      ∀ i, i < H → (stripBounds H N).getD i (0, 0) = (i, i + 1)) := by
  constructor
  · intro hNH
    have hrpw : ¬ H / N < 1 := by
      rw [Nat.lt_one_iff]
      rw [Nat.div_eq_zero_iff (by omega)]
      omega
    unfold stripBounds
    simp only [if_neg hrpw]
    refine ⟨by simp, fun i hi => ?_, ?_⟩
    · rw [rangeMap_getD_pair, if_pos (by omega)]
      rw [if_neg (by omega)]
    · rw [rangeMap_getD_pair, if_pos (by omega), if_pos rfl]
  · intro hHN
    have hrpw : H / N < 1 := by
      rw [Nat.lt_one_iff, Nat.div_eq_zero_iff (by omega)]
      omega
    unfold stripBounds
    simp only [if_pos hrpw]
    refine ⟨by simp, fun i hi => ?_⟩
    rw [rangeMap_getD_pair, if_pos hi]
    rcases eq_or_ne i (H - 1) with rfl | hne
    · rw [if_pos rfl]
      simp only [Prod.mk.injEq]
      omega
    · rw [if_neg hne]
      simp only [Prod.mk.injEq]
      omega

/-- C3 amended, witness at `H = 10`, `N = 4`. -/
theorem c3_amended_witness :
    (1 ≤ 4 ∧ 1 ≤ 10) ∧
    ((4 ≤ 10 →
      (stripBounds 10 4).length = 4 ∧
      (∀ i, i + 1 < 4 →
        (stripBounds 10 4).getD i (0, 0) = (i * (10 / 4), (i + 1) * (10 / 4))) ∧
      (stripBounds 10 4).getD (4 - 1) (0, 0) = ((4 - 1) * (10 / 4), 10)) ∧
    (10 < 4 →
      (stripBounds 10 4).length = 10 ∧
      ∀ i, i < 10 → (stripBounds 10 4).getD i (0, 0) = (i, i + 1))) :=
  ⟨⟨by decide, by decide⟩, c3_amended 10 4 (by decide) (by decide)⟩

/-! ## Claim C9 -/

/-- C9: serializing with an empty palette is rejected with the designated
error; the model returns the error before producing any output byte,
mirroring the check at the top of `encodeGIF` (before the header is
written to the sink). -/
theorem c9_empty_palette (pix : List Nat) (dx dy workers : Nat) :
    encodeGIF [] pix dx dy workers =
      Except.error "gif: cannot encode image block with empty palette" := by
  simp [encodeGIF]

/-! ## Claim C5 -/

/-- C5: `Encode` fails with the image-too-large error iff width or height
is at least 65536; the check precedes everything else (an error result
carries no output, mirroring the early return before any sink write), and
dimensions up to 65535 are never rejected by it (the encoder then
succeeds, the fixed 216-entry palette being nonempty). -/
theorem c5_size_check (img : SrcImage) (fast : Bool) (w : Nat) (hw : 1 ≤ w) :
    (Encode img fast w = Except.error "gif: image is too large to encode" ↔
      65536 ≤ img.w ∨ 65536 ≤ img.h) ∧
    (img.w ≤ 65535 → img.h ≤ 65535 → ∃ bs, Encode img fast w = Except.ok bs) := by
  unfold Encode
  by_cases hc : 65536 ≤ img.w ∨ 65536 ≤ img.h
  · rw [if_pos hc]
    exact ⟨⟨fun _ => hc, fun _ => rfl⟩, fun h1 h2 => by omega⟩
  · rw [if_neg hc]
    unfold encodeGIF
    rw [if_neg (by rw [WebSafe_length]; omega)]
    exact ⟨⟨fun h => by simp at h, fun h => absurd h hc⟩,
      fun _ _ => ⟨_, rfl⟩⟩

/-- C5 witness at a 1×1 image with one worker. -/
theorem c5_size_check_witness :
    1 ≤ 1 ∧
    ((Encode { w := 1, h := 1, px := fun _ _ => (0, 0, 0) } true 1 =
        Except.error "gif: image is too large to encode" ↔
      65536 ≤ (1 : Nat) ∨ 65536 ≤ (1 : Nat)) ∧
    ((1 : Nat) ≤ 65535 → (1 : Nat) ≤ 65535 →
      ∃ bs, Encode { w := 1, h := 1, px := fun _ _ => (0, 0, 0) } true 1 =
        Except.ok bs)) :=
  ⟨by decide, c5_size_check { w := 1, h := 1, px := fun _ _ => (0, 0, 0) } true 1
    (by decide)⟩

/-! ## Claim C6 -/

/-- Past 128 palette entries the `litWidth` loop runs to 8. -/
theorem lwGo_big (n : Nat) (h : 128 < n) : lwGo 6 2 n = 8 := by
  have h4 : (4 : Nat) < n := by omega
  have h8 : (8 : Nat) < n := by omega
  have h16 : (16 : Nat) < n := by omega
  have h32 : (32 : Nat) < n := by omega
  have h64 : (64 : Nat) < n := by omega
  simp [lwGo, h4, h8, h16, h32, h64, h]

set_option maxRecDepth 40000 in
theorem c6aux : ∀ m ∈ List.range 129, 1 ≤ m →
    (2 ≤ litWidthOf m ∧ litWidthOf m ≤ 8) ∧
    (litWidthOf m < 8 → m ≤ 2 ^ litWidthOf m) ∧
    (∀ v ∈ List.range 8, 2 ≤ v → m ≤ 2 ^ v → litWidthOf m ≤ v) ∧
    ((∀ v ∈ List.range 8, 2 ≤ v → 2 ^ v < m) → litWidthOf m = 8) := by decide

/-- C6: the LZW minimum code size byte `litWidthOf n` (for a nonempty
palette of `n` entries) is the smallest value in `[2,8)` with
`2^value ≥ n` when one exists (minimality plus the bound它 satisfies),
and 8 otherwise; for the 216-entry palette it is 8. -/
theorem c6_litwidth (n : Nat) (h1 : 1 ≤ n) :
    (2 ≤ litWidthOf n ∧ litWidthOf n ≤ 8) ∧
    (litWidthOf n < 8 → n ≤ 2 ^ litWidthOf n) ∧
    (∀ v, v < 8 → 2 ≤ v → n ≤ 2 ^ v → litWidthOf n ≤ v) ∧
    ((∀ v, v < 8 → 2 ≤ v → 2 ^ v < n) → litWidthOf n = 8) ∧
    litWidthOf 216 = 8 := by
  rcases Nat.lt_or_ge n 129 with hsmall | hbig
  · obtain ⟨a, b, c, d⟩ := c6aux n (List.mem_range.mpr hsmall) h1
    exact ⟨a, b,
      fun v hv h2 h3 => c v (List.mem_range.mpr hv) h2 h3,
      fun hall => d (fun v hv h2 => hall v (List.mem_range.mp hv) h2),
      by decide⟩
  · have hlw : litWidthOf n = 8 := by
      unfold litWidthOf
      rw [if_pos (by omega)]
      exact lwGo_big n (by omega)
    rw [hlw]
    refine ⟨⟨by omega, le_rfl⟩, by omega, fun v hv h2v hle => ?_, fun _ => rfl,
      by decide⟩
    exfalso
    have hpow : 2 ^ v ≤ 2 ^ 7 :=
      Nat.pow_le_pow_right (by omega) (by omega)
    have : (2 : Nat) ^ 7 = 128 := by norm_num
    omega

/-- C6 witness at the real palette size 216. -/
theorem c6_litwidth_witness :
    1 ≤ 216 ∧
    ((2 ≤ litWidthOf 216 ∧ litWidthOf 216 ≤ 8) ∧
    (litWidthOf 216 < 8 → 216 ≤ 2 ^ litWidthOf 216) ∧
    (∀ v, v < 8 → 2 ≤ v → 216 ≤ 2 ^ v → litWidthOf 216 ≤ v) ∧
    ((∀ v, v < 8 → 2 ≤ v → 2 ^ v < 216) → litWidthOf 216 = 8) ∧
    litWidthOf 216 = 8) :=
  ⟨by decide, c6_litwidth 216 (by decide)⟩

/-! ## Claim C7 -/

set_option maxRecDepth 100000 in
theorem c7aux : ∀ m ∈ List.range 257, 1 ≤ m →
    (∃ k, k < 9 ∧ paddedSizeOf m = 2 ^ k) ∧
    m ≤ paddedSizeOf m ∧ paddedSizeOf m < 2 * m := by decide

/-- Past 256 palette entries the doubling loop caps at 256. -/
theorem paddedSizeOf_big (n : Nat) (h : 256 < n) : paddedSizeOf n = 256 := by
  have h1 : (1 : Nat) < n := by omega
  have h2 : (2 : Nat) < n := by omega
  have h4 : (4 : Nat) < n := by omega
  have h8 : (8 : Nat) < n := by omega
  have h16 : (16 : Nat) < n := by omega
  have h32 : (32 : Nat) < n := by omega
  have h64 : (64 : Nat) < n := by omega
  have h128 : (128 : Nat) < n := by omega
  simp [paddedSizeOf, paddedGo, h1, h2, h4, h8, h16, h32, h64, h128]

theorem writeColorTable_entry_length (p : List (Nat × Nat × Nat)) (ps : Nat) :
    ∀ e ∈ writeColorTable p ps, e.length = 3 := by
  intro e he
  unfold writeColorTable at he
  obtain ⟨i, _, rfl⟩ := List.mem_map.mp he
  split_ifs <;> rfl

theorem writeColorTable_flatten_length (p : List (Nat × Nat × Nat)) (ps : Nat) :
    ((writeColorTable p ps).flatten).length = 3 * ps := by
  rw [List.length_flatten]
  have hmap : (writeColorTable p ps).map List.length =
      List.replicate (writeColorTable p ps).length 3 := by
    rw [List.eq_replicate_iff]
    refine ⟨by simp, fun x hx => ?_⟩
    obtain ⟨e, he, rfl⟩ := List.mem_map.mp hx
    exact writeColorTable_entry_length p ps e he
  rw [hmap, List.sum_replicate]
  unfold writeColorTable
  simp [Nat.mul_comm]

/-- C7: the global color table has exactly `paddedSizeOf n` entries where
`n` is the palette length — the smallest power of two ≥ `n` (witnessed by
`∃ k < 9` with `n ≤ 2^k < 2n`), capped at 256 — each entry 3 bytes, with
every entry at an index ≥ `n` zero-filled black; for the 216-entry palette
the padded size is 256. -/
theorem c7_color_table (pal : List (Nat × Nat × Nat)) (h1 : 1 ≤ pal.length) :
    ((pal.length ≤ 256 →
        (∃ k, k < 9 ∧ paddedSizeOf pal.length = 2 ^ k) ∧
        pal.length ≤ paddedSizeOf pal.length ∧
        paddedSizeOf pal.length < 2 * pal.length) ∧
      (256 < pal.length → paddedSizeOf pal.length = 256)) ∧
    (writeColorTable pal (paddedSizeOf pal.length)).length =
      paddedSizeOf pal.length ∧
    ((writeColorTable pal (paddedSizeOf pal.length)).flatten).length =
      3 * paddedSizeOf pal.length ∧
    (∀ i, pal.length ≤ i → i < paddedSizeOf pal.length →
      (writeColorTable pal (paddedSizeOf pal.length)).getD i [] = [0, 0, 0]) ∧
    paddedSizeOf 216 = 256 := by
  refine ⟨⟨fun hle => ?_, fun hgt => paddedSizeOf_big _ hgt⟩,
    by simp [writeColorTable], writeColorTable_flatten_length _ _,
    fun i hi1 hi2 => ?_, by decide⟩
  · exact c7aux pal.length (List.mem_range.mpr (by omega)) h1
  · unfold writeColorTable
    rw [rangeMap_getD_list, if_pos hi2, if_neg (by omega)]

/-- C7 witness at the 216-entry web-safe palette. -/
theorem c7_color_table_witness :
    1 ≤ WebSafe.length ∧
    (((WebSafe.length ≤ 256 →
        (∃ k, k < 9 ∧ paddedSizeOf WebSafe.length = 2 ^ k) ∧
        WebSafe.length ≤ paddedSizeOf WebSafe.length ∧
        paddedSizeOf WebSafe.length < 2 * WebSafe.length) ∧
      (256 < WebSafe.length → paddedSizeOf WebSafe.length = 256)) ∧
    (writeColorTable WebSafe (paddedSizeOf WebSafe.length)).length =
      paddedSizeOf WebSafe.length ∧
    ((writeColorTable WebSafe (paddedSizeOf WebSafe.length)).flatten).length =
      3 * paddedSizeOf WebSafe.length ∧
    (∀ i, WebSafe.length ≤ i → i < paddedSizeOf WebSafe.length →
      (writeColorTable WebSafe (paddedSizeOf WebSafe.length)).getD i [] =
        [0, 0, 0]) ∧
    paddedSizeOf 216 = 256) :=
  ⟨by rw [WebSafe_length]; omega, c7_color_table WebSafe (by rw [WebSafe_length]; omega)⟩

/-! ## Claim C8 -/

/-- C8: for every sequence of writes to the `blockWriter` followed by
`close`, the bytes passed to the underlying sink form a sequence of
blocks — one length byte `L ∈ [1,255]` followed by exactly `L` data
bytes — whose in-order concatenation is the input stream; every block
except possibly the last is a full 255-byte block (a full block is
flushed as soon as 255 bytes accumulate, `close` flushes the 1–254
remaining bytes), and nothing is emitted when no bytes remain at close. -/
theorem c8_block_framing (writes : List (List Nat)) :
    ∃ blocks : List (List Nat),
      bwRun writes = (blocks.map (fun b => b.length :: b)).flatten ∧
      (∀ b ∈ blocks, 1 ≤ b.length ∧ b.length ≤ 255) ∧
      blocks.flatten = writes.flatten ∧
      (∀ b ∈ blocks.dropLast, b.length = 255) ∧
      (writes.flatten = [] → blocks = []) := by
  obtain ⟨blocks, h1, h2, h3, h4, h5⟩ :=
    chunk255_blocks writes.flatten.length writes.flatten le_rfl
  exact ⟨blocks, by rw [bwRun_eq_chunk255, h1], h2, h3, h4, h5⟩

/-! ## Claim C4 -/

/-- C4: the quantizer writes
`buffer[y][x] = 36*level(R) + 6*level(G) + level(B)` where `level` passes
the high byte of the 16-bit channel sample through `FastGifLut` (the
stored `uint8` cast never truncates, every index being ≤ 215), and the
RGBA64 fast path and the generic normalized-color path compute identical
indices for identical colors. -/
theorem c4_quantizer (img : SrcImage) (w x y : Nat) (hw : 1 ≤ w)
    (hx : x < img.w) (hy : y < img.h)
    (hr : (img.px x y).1 < 65536) (hg : (img.px x y).2.1 < 65536)
    (hb : (img.px x y).2.2 < 65536) :
    (mapColors img mapColorFast w).getD (y * img.w + x) 0 =
      36 * lutAt ((img.px x y).1 >>> 8) + 6 * lutAt ((img.px x y).2.1 >>> 8) +
        lutAt ((img.px x y).2.2 >>> 8) ∧
    mapColorFast (img.px x y) = mapColorGeneric (img.px x y) := by
  have hWpos : 0 < img.w := by omega
  have hj : y * img.w + x < img.w * img.h := by
    calc y * img.w + x < (y + 1) * img.w := by rw [Nat.succ_mul]; omega
      _ ≤ img.h * img.w := Nat.mul_le_mul_right _ (by omega)
      _ = img.w * img.h := Nat.mul_comm _ _
  have hmod : (y * img.w + x) % img.w = x := by
    rw [Nat.add_comm, Nat.add_mul_mod_self_right, Nat.mod_eq_of_lt hx]
  have hdiv : (y * img.w + x) / img.w = y := by
    rw [Nat.add_comm, Nat.add_mul_div_right x y hWpos, Nat.div_eq_of_lt hx]
    omega
  have hmask : ∀ r : Nat, r < 65536 → (r >>> 8) &&& 0xff = r >>> 8 := by
    intro r hrlt
    have hsh : r >>> 8 = r / 2 ^ 8 := Nat.shiftRight_eq_div_pow r 8
    have hlt : r >>> 8 < 256 := by rw [hsh]; omega
    rw [Nat.and_pow_two_sub_one_eq_mod (r >>> 8) 8, Nat.mod_eq_of_lt hlt]
  have hpaths : mapColorFast (img.px x y) = mapColorGeneric (img.px x y) := by
    unfold mapColorFast mapColorGeneric
    rw [hmask _ hr, hmask _ hg, hmask _ hb]
  refine ⟨?_, hpaths⟩
  unfold mapColors
  rw [scatter_getD, List.length_replicate,
    if_pos ⟨stripBounds_cover_pos img.h img.w w (y * img.w + x) hw hj, hj⟩,
    hmod, hdiv]
  unfold mapColorFast
  have b1 := lutAt_le_five ((img.px x y).1 >>> 8)
  have b2 := lutAt_le_five ((img.px x y).2.1 >>> 8)
  have b3 := lutAt_le_five ((img.px x y).2.2 >>> 8)
  exact Nat.mod_eq_of_lt (by omega)

/-- C4 witness: a 1×1 image holding the 16-bit color (65535, 0, 13000),
one worker; its index is `36*5 + 6*0 + lut(50) = 181`. -/
theorem c4_quantizer_witness :
    (1 ≤ 1 ∧ (0 : Nat) < 1 ∧ (0 : Nat) < 1 ∧
      (65535 : Nat) < 65536 ∧ (0 : Nat) < 65536 ∧ (13000 : Nat) < 65536) ∧
    ((mapColors { w := 1, h := 1, px := fun _ _ => (65535, 0, 13000) }
        mapColorFast 1).getD (0 * 1 + 0) 0 =
      36 * lutAt ((65535 : Nat) >>> 8) + 6 * lutAt ((0 : Nat) >>> 8) +
        lutAt ((13000 : Nat) >>> 8) ∧
      mapColorFast (65535, 0, 13000) = mapColorGeneric (65535, 0, 13000)) :=
  ⟨by decide,
    c4_quantizer { w := 1, h := 1, px := fun _ _ => (65535, 0, 13000) } 1 0 0
      (by decide) (by decide) (by decide) (by decide) (by decide) (by decide)⟩

/-! ## Claim C2 -/

/-- When the parallel path is not taken, `writeLZWData` compresses the
reassembled row-major buffer as one stream, independently of the worker
count used a for the row copies. -/
theorem writeLZWData_seq_eq (pix : List Nat) (dx dy L w : Nat) (hw : 1 ≤ w)
    (hnp : ¬(1 < w ∧ w * 4 ≤ dy)) (hlen : pix.length = dx * dy) :
    writeLZWData pix dx dy L w = writeLZWData pix dx dy L 1 := by
  unfold writeLZWData
  rw [if_neg hnp, if_neg (by omega)]
  rw [assemble_eq pix dx dy w hw hlen, assemble_eq pix dx dy 1 le_rfl hlen]

/-- C2 (amended): quantization is partition-independent — any worker
count produces the same index buffer as one worker — and the final
bitstream is unchanged by the worker count whenever the multi-strip
parallel compression path is not taken (`workers = 1`, or
`height < 4*workers`).  (As `c2_counterexample` shows, bitstreams do
differ between worker counts once the parallel path triggers.) -/
theorem c2_partition_independence (img : SrcImage) (fast : Bool) (w : Nat)
    (hw : 1 ≤ w) :
    mapColors img (if fast then mapColorFast else mapColorGeneric) w =
      mapColors img (if fast then mapColorFast else mapColorGeneric) 1 ∧
    (¬(1 < w ∧ w * 4 ≤ img.h) → Encode img fast w = Encode img fast 1) := by
  have hmap : ∀ mapper, mapColors img mapper w = mapColors img mapper 1 :=
    fun m => (mapColors_eq_pointwise img m w hw).trans
      (mapColors_eq_pointwise img m 1 le_rfl).symm
  refine ⟨hmap _, fun hnp => ?_⟩
  unfold Encode
  by_cases hc : 65536 ≤ img.w ∨ 65536 ≤ img.h
  · simp only [if_pos hc]
  · simp only [if_neg hc]
    rw [hmap _]
    have hlzw : writeLZWData
        (mapColors img (if fast then mapColorFast else mapColorGeneric) 1)
        img.w img.h (litWidthOf WebSafe.length) w =
        writeLZWData
          (mapColors img (if fast then mapColorFast else mapColorGeneric) 1)
          img.w img.h (litWidthOf WebSafe.length) 1 :=
      writeLZWData_seq_eq _ _ _ _ w hw hnp (by rw [mapColors_length])
    simp only [encodeGIF, hlzw]

/-- C2 amended, witness: a 1×1 black image, 2 workers (the parallel path
needs `height ≥ 8`, so both runs take the sequential path). -/
theorem c2_partition_independence_witness :
    1 ≤ 2 ∧
    (mapColors { w := 1, h := 1, px := fun _ _ => (0, 0, 0) }
        (if true then mapColorFast else mapColorGeneric) 2 =
      mapColors { w := 1, h := 1, px := fun _ _ => (0, 0, 0) }
        (if true then mapColorFast else mapColorGeneric) 1 ∧
    (¬(1 < 2 ∧ 2 * 4 ≤ (1 : Nat)) →
      Encode { w := 1, h := 1, px := fun _ _ => (0, 0, 0) } true 2 =
        Encode { w := 1, h := 1, px := fun _ _ => (0, 0, 0) } true 1)) :=
  ⟨by decide,
    c2_partition_independence { w := 1, h := 1, px := fun _ _ => (0, 0, 0) }
      true 2 (by decide)⟩

/-- Outcome projection used by the C2 counterexample: the length of the
produced bitstream, `none` on error. -/
def okLen (e : Except String (List Nat)) : Option Nat :=
  match e with
  | .ok l => some l.length
  | .error _ => none

/-- The 1×8 image used by the C2 counterexample: row `y` has blue sample
`256 * v` with `v` running through LUT levels `0,1,2,3,4,5,0,1`. -/
def c2Img : SrcImage :=
  { w := 1, h := 8,
    px := fun _ y => (0, 0, 256 * ([0, 26, 77, 128, 179, 230, 0, 26].getD y 0)) }

set_option maxRecDepth 100000 in
/-- C2 counterexample: encoding the 1×8 image `c2Img` with 2 workers
takes the parallel compression path (`height = 8 ≥ 2*4`) and yields an
808-byte bitstream, while 1 worker yields 804 bytes — the final
bitstreams are not bit-identical across worker counts. -/
theorem c2_counterexample :
    okLen (Encode c2Img true 2) = some 808 ∧
    okLen (Encode c2Img true 1) = some 804 ∧
    Encode c2Img true 2 ≠ Encode c2Img true 1 := by
  have ha : okLen (Encode c2Img true 2) = some 808 := by decide
  have hb : okLen (Encode c2Img true 1) = some 804 := by decide
  refine ⟨ha, hb, fun h => ?_⟩
  rw [h, hb] at ha
  simp at ha

/-! ## Claim C10 -/

theorem replicate_flatten_length :
    ∀ n, ((List.replicate n ([3, 0, 3, 2] : List Nat)).flatten).length = 4 * n := by
  intro n
  induction n with
  | zero => simp
  | succ n ih =>
    rw [List.replicate_succ, List.flatten_cons, List.length_append, ih]
    simp
    ring

/-- The LZW stream of the empty pixel sequence, sub-block framed:
`Close` on an unused writer emits the clear code then the EOI code
(bytes `0,3,2`), framed as the single block `[3,0,3,2]`. -/
theorem chunk255_lzw_empty : chunk255 (lzwEncode 8 []) = [3, 0, 3, 2] := by decide

/-- C10: an image with zero pixels (width 0 or height 0) encodes
successfully into a complete GIF bitstream: signature, logical screen
descriptor with the corresponding u16 dimension field 0 and packed byte
0x87 (global table present, 256 entries), 256-entry color table, image
descriptor, LZW minimum code size byte 8, a nonempty compressed payload
that decodes to the empty pixel sequence, block terminator 0x00 and
trailer 0x3B. -/
theorem c10_zero_pixels (img : SrcImage) (fast : Bool) (w : Nat)
    (hw : 1 ≤ w) (hW : img.w < 65536) (hH : img.h < 65536)
    (h0 : img.w * img.h = 0) :
    ∃ p, Encode img fast w = Except.ok
        ([0x47, 0x49, 0x46, 0x38, 0x39, 0x61] ++ writeUint16 img.w ++
          writeUint16 img.h ++ [0x87, 0x00, 0x00] ++
          (writeColorTable WebSafe 256).flatten ++
          [0x2C] ++ writeUint16 0 ++ writeUint16 0 ++
          writeUint16 img.w ++ writeUint16 img.h ++ [0x00] ++ [8] ++
          p ++ [0x00, 0x3B]) ∧
      decodeFramed 8 p = some [] ∧ p ≠ [] := by
  have hpix : mapColors img (if fast then mapColorFast else mapColorGeneric) w
      = [] :=
    List.eq_nil_of_length_eq_zero (by rw [mapColors_length, h0])
  refine ⟨writeLZWData [] img.w img.h 8 w, ?_, ?_, ?_⟩
  · unfold Encode
    rw [if_neg (by omega), hpix]
    unfold encodeGIF
    rw [if_neg (by rw [WebSafe_length]; omega)]
    norm_num [WebSafe_length, (by decide : paddedSizeOf 216 = 256),
      (by decide : litWidthOf 216 = 8), (by decide : log2 256 = 7),
      (by decide : (128 : Nat) ||| 7 = 0x87)]
  · unfold writeLZWData
    by_cases hpar : 1 < w ∧ w * 4 ≤ img.h
    · rw [if_pos hpar]
      unfold writeParallelLZW
      have hmapc : (stripBounds img.h w).map (fun se =>
          chunk255 (lzwEncode 8
            ((([] : List Nat).drop (se.1 * img.w)).take ((se.2 - se.1) * img.w))))
          = (stripBounds img.h w).map (fun se => [3, 0, 3, 2]) := by
        apply List.map_congr_left
        intro se hse
        rw [List.drop_nil, List.take_nil, chunk255_lzw_empty]
      rw [hmapc, List.map_const']
      obtain ⟨m, hm⟩ : ∃ m, (stripBounds img.h w).length = m + 1 := by
        have hne := stripBounds_ne_nil img.h w (by omega) (by omega)
        cases hsb : stripBounds img.h w with
        | nil => exact absurd hsb hne
        | cons a l => exact ⟨l.length, by simp [hsb]⟩
      rw [hm]
      unfold decodeFramed deBlock
      rw [replicate_flatten_length]
      rw [deBlockGo_rep (m + 1) (4 * (m + 1)) le_rfl]
      rw [List.replicate_succ, List.flatten_cons]
      exact lzwDecode_empty_stream _
    · rw [if_neg hpar]
      have hbuf : scatter (fun j => ([] : List Nat).getD j 0)
          (stripBounds img.h w) img.w (List.replicate (img.w * img.h) 0) = [] :=
        List.eq_nil_of_length_eq_zero
          (by rw [scatter_length, List.length_replicate, h0])
      rw [hbuf, chunk255_lzw_empty]
      decide
  · unfold writeLZWData
    by_cases hpar : 1 < w ∧ w * 4 ≤ img.h
    · rw [if_pos hpar]
      unfold writeParallelLZW
      have hne := stripBounds_ne_nil img.h w (by omega) (by omega)
      cases hsb : stripBounds img.h w with
      | nil => exact absurd hsb hne
      | cons a l =>
        simp [List.drop_nil, List.take_nil, chunk255_lzw_empty]
    · rw [if_neg hpar]
      have hbuf : scatter (fun j => ([] : List Nat).getD j 0)
          (stripBounds img.h w) img.w (List.replicate (img.w * img.h) 0) = [] :=
        List.eq_nil_of_length_eq_zero
          (by rw [scatter_length, List.length_replicate, h0])
      rw [hbuf, chunk255_lzw_empty]
      decide

/-- C10 witness: a 0×0 image, one worker. -/
theorem c10_zero_pixels_witness :
    (1 ≤ 1 ∧ (0 : Nat) < 65536 ∧ (0 : Nat) < 65536 ∧ (0 : Nat) * 0 = 0) ∧
    ∃ p, Encode { w := 0, h := 0, px := fun _ _ => (0, 0, 0) } true 1 =
        Except.ok
          ([0x47, 0x49, 0x46, 0x38, 0x39, 0x61] ++ writeUint16 0 ++
            writeUint16 0 ++ [0x87, 0x00, 0x00] ++
            (writeColorTable WebSafe 256).flatten ++
            [0x2C] ++ writeUint16 0 ++ writeUint16 0 ++
            writeUint16 0 ++ writeUint16 0 ++ [0x00] ++ [8] ++
            p ++ [0x00, 0x3B]) ∧
        decodeFramed 8 p = some [] ∧ p ≠ [] :=
  ⟨by decide,
    c10_zero_pixels { w := 0, h := 0, px := fun _ _ => (0, 0, 0) } true 1
      (by decide) (by decide) (by decide) (by decide)⟩
